import Mathlib

/-!
Verification of the MaRMAT matching core, a shallow embedding of
`src/models/marmat_processing.py`: the process-safe worker
`_match_terms_in_column`, category filtering (`select_categories`), the
work partitioning / dispatch / aggregation of `find_matches`, and the
getter `get_matching_results`.

Modelling conventions:
* A cell of the metadata table is an `Option String`; `none` models a
  missing / non-text value, which pandas' `str.contains(..., na=False)`
  treats as a non-match.
* The regex `r'\b' + re.escape(term) + r'\b'` searched with `case=False`
  is embedded as an explicit word-boundary search over lower-cased
  character lists (`re.escape` makes the term literal, so the pattern is
  the term itself; `\b` matches exactly where the word-character-ness of
  the two adjacent positions differs, out-of-range counting as non-word;
  `IGNORECASE` is embedded by case-folding both sides).  Word characters
  follow ASCII `\w` semantics: letters, digits, underscore.
* `int((completed / total) * 99)` is embedded as exact integer
  arithmetic `completed * 99 / total` (floor); the properties proved of
  the progress stream are insensitive to the sub-unit rounding of the
  float intermediate.
* The sequential fallback branch of `find_matches` is the computational
  semantics; the parallel branch is the same computation with the
  completion order of the futures made an explicit parameter
  (`find_matches_par`), since worker results are accumulated in
  completion order and progress depends only on the completed count.
* The `except re.error: continue` branch of the worker is made explicit
  as a parameter `err : String → Bool` telling which terms fail to
  compile; since `re.escape` always yields a valid pattern, the concrete
  run instantiates it with `noRegexError`.
-/

namespace MaRMAT

/-- A character counts as a word character (ASCII `\w`): letter, digit or
underscore. -/
def isWordChar (c : Char) : Bool := c.isAlphanum || c == '_'

/-- Lower-cased character list of a string: `case=False` matching is embedded
by case-folding both the text and the term. -/
def lowerChars (s : String) : List Char := s.data.map Char.toLower

/-- Word-character-ness of the character at position `i`; out of range counts
as non-word. -/
def wordAt (s : List Char) (i : Nat) : Bool :=
  match s[i]? with
  | some c => isWordChar c
  | none => false

/-- Python's `\b`: position `i` of `s` is a word boundary iff the
word-character-ness of the character before `i` differs from that of the
character at `i` (out of range counts as non-word). -/
def boundaryAt (s : List Char) (i : Nat) : Bool :=
  (if i = 0 then false else wordAt s (i - 1)) != wordAt s i

/-- The pattern `\b term \b` (with `t` the escaped, case-folded term) matches
the case-folded text `s` at position `i`. -/
def matchAt (s t : List Char) (i : Nat) : Bool :=
  ((s.drop i).take t.length == t) && boundaryAt s i && boundaryAt s (i + t.length)

/-- One cell of `col_series.str.contains(pattern, case=False, regex=True)`:
the term occurs somewhere in the text as a whole word, case-insensitively. -/
def wholeWordMatch (term text : String) : Bool :=
  (List.range ((lowerChars text).length + 1)).any fun i =>
    matchAt (lowerChars text) (lowerChars term) i

/-- `str.contains(..., na=False)` on one cell: a missing value never
matches. -/
def cellMatches (term : String) (cell : Option String) : Bool :=
  match cell with
  | some text => wholeWordMatch term text
  | none => false

/-- One output row of the worker (keys `Identifier`, `Term`, `Category`,
`Column`, `Original Text`). -/
structure MatchRec where
  identifier : Option String
  term : String
  category : String
  column : String
  originalText : Option String
deriving DecidableEq, Repr

/-- The rows the worker appends for one `(term, category)` pair: one row per
matching row index of the column, in ascending index order (the iteration
over `mask[mask].index`). -/
def matchesForTerm (colValues idValues : List (Option String))
    (colName term category : String) : List MatchRec :=
  (List.range colValues.length).filterMap fun idx =>
    if cellMatches term (colValues.getD idx none) then
      some { identifier := idValues.getD idx none
             term := term
             category := category
             column := colName
             originalText := colValues.getD idx none }
    else none

/-- The pattern-compilation oracle of the concrete run: `re.escape` always
yields a valid pattern, so no term raises `re.error`. -/
def noRegexError : String → Bool := fun _ => false

/-- The worker `_match_terms_in_column`, with the `except re.error: continue`
branch made explicit as the parameter `err` (whether compiling the term's
pattern raises). -/
def _match_terms_in_column (err : String → Bool)
    (colValues idValues : List (Option String)) (colName : String)
    (termBatch : List (String × String)) : List MatchRec :=
  termBatch.flatMap fun tc =>
    if err tc.1 then [] else matchesForTerm colValues idValues colName tc.1 tc.2

/-- The metadata table (`metadata_df`): an ordered list of rows, each mapping
a column name to an optional textual cell. -/
structure RecordTable where
  rows : List (String → Option String)

/-- `meta[col].tolist()`. -/
def colData (m : RecordTable) (c : String) : List (Option String) :=
  m.rows.map fun r => r c

/-- Lexicographic `<` on character lists: the string comparison order used by
the final sort. -/
def charListLT : List Char → List Char → Bool
  | _, [] => false
  | [], _ :: _ => true
  | a :: as, b :: bs => decide (a < b) || (a == b && charListLT as bs)

/-- Lexicographic `<` on strings. -/
def strLT (a b : String) : Bool := charListLT a.data b.data

/-- Lexicographic `≤` on strings. -/
def strLE (a b : String) : Bool := strLT a b || a == b

/-- Python's `str.strip()`: remove leading and trailing whitespace. -/
def strip (s : String) : String :=
  String.mk (((s.data.dropWhile Char.isWhitespace).reverse.dropWhile
    Char.isWhitespace).reverse)

/-- `select_categories`: strip the requested names, then keep the lexicon rows
whose category is among them (`lexicon_df['category'].isin(categories)`). -/
def select_categories (lexicon : List (String × String)) (cats : List String) :
    List (String × String) :=
  lexicon.filter fun tc => (cats.map strip).contains tc.2

/-- `get_matching_results`: the stored matches table if it is present and
non-empty, `None` otherwise. -/
def get_matching_results (mt : Option (List MatchRec)) :
    Option (List MatchRec) :=
  match mt with
  | some t => if t.isEmpty then none else some t
  | none => none

/-- The slicing `[terms[i:i+bs] for i in range(0, len(terms), bs)]`: one
slice of length at most `bs` per start index `0, bs, 2*bs, ...`, i.e. one
per `i < ceil(len / bs)`. -/
def sliceList (bs : Nat) (l : List α) : List (List α) :=
  (List.range ((l.length + bs - 1) / bs)).map fun i => (l.drop (i * bs)).take bs

/-- `batch_count = max(1, num_cores * 2)`;
`batch_size = max(1, len(terms_categories) // batch_count)`. -/
def batchSize (nTerms numCores : Nat) : Nat :=
  max 1 (nTerms / max 1 (numCores * 2))

/-- The term batches built by `find_matches`. -/
def termBatches (numCores : Nat) (terms : List (String × String)) :
    List (List (String × String)) :=
  sliceList (batchSize terms.length numCores) terms

/-- The slice lengths produced by `sliceList bs` on a list of length `n`:
batch boundaries as a function of the length alone. -/
def batchLens (bs n : Nat) : List Nat :=
  (List.range ((n + bs - 1) / bs)).map fun i => min bs (n - i * bs)

/-- One `(col_data, id_data, col, batch)` work tuple. -/
structure WorkItem where
  colValues : List (Option String)
  idValues : List (Option String)
  colName : String
  batch : List (String × String)
deriving DecidableEq, Repr

/-- The work-item construction loop of `find_matches`: one item per
`(column, batch)` pair, carrying the column's values and the identifier
column's values. -/
def mkWorkItems (m : RecordTable) (idCol : String) (selCol : List String)
    (batches : List (List (String × String))) : List WorkItem :=
  selCol.flatMap fun col =>
    batches.map fun b => ⟨colData m col, colData m idCol, col, b⟩

/-- Run one work unit through the worker. -/
def runWorkItem (err : String → Bool) (w : WorkItem) : List MatchRec :=
  _match_terms_in_column err w.colValues w.idValues w.colName w.batch

/-- `<` on optional identifiers: missing keys sort after present ones. -/
def optStrLT : Option String → Option String → Bool
  | some a, some b => strLT a b
  | some _, none => true
  | _, _ => false

/-- The `sort_values(by=['Identifier', 'Column', 'Term'])` key order. -/
def keyLE (a b : MatchRec) : Bool :=
  optStrLT a.identifier b.identifier ||
    (a.identifier == b.identifier &&
      (strLT a.column b.column ||
        (a.column == b.column && strLE a.term b.term)))

/-- The key order as a relation. -/
def keyRel (a b : MatchRec) : Prop := keyLE a b = true

instance : DecidableRel keyRel :=
  fun a b => inferInstanceAs (Decidable (keyLE a b = true))

/-- The final sort of the result assembly: a stable sort by the
(Identifier, Column, Term) key. -/
def sortMatches (l : List MatchRec) : List MatchRec :=
  List.insertionSort keyRel l

/-- `int((completed / total_work_items) * 99)`, as exact integer
arithmetic. -/
def progressOf (completed total : Nat) : Nat := completed * 99 / total

/-- The per-unit progress emissions of a run over `total` work units. -/
def progressSeq (total : Nat) : List Nat :=
  (List.range total).map fun i => progressOf (i + 1) total

/-- What one run of `find_matches` delivers to its caller: the returned
result table and the sequence of values emitted on `progress_update`. -/
structure RunOutput where
  result : List MatchRec
  progress : List Nat
deriving DecidableEq, Repr

/-- `find_matches`, with the sequential fallback branch as the computational
semantics (the parallel branch is `find_matches_par` below).  `numCores` is
`os.cpu_count() or 4`; `lex` is the current `filtered_lexicon` as
`(term, category)` pairs (`none` = not set); `mdf` is `metadata_df`
(`none` = not loaded).  All exceptions of this path are caught inside the
source function, so the embedding is a total function. -/
def find_matches (numCores : Nat) (lex : Option (List (String × String)))
    (mdf : Option RecordTable) (idCol : String) (selCol : List String) :
    RunOutput :=
  match lex, mdf with
  | some l, some m =>
    if l.isEmpty || m.rows.isEmpty then ⟨[], [100]⟩
    else
      let items := mkWorkItems m idCol selCol (termBatches numCores l)
      let gathered := items.flatMap (runWorkItem noRegexError)
      ⟨sortMatches gathered, progressSeq items.length ++ [100]⟩
  | _, _ => ⟨[], [100]⟩

/-- `find_matches` along the parallel branch, with the completion order of
the futures made explicit: `reorder` gives the order in which
`as_completed` yields the submitted units; results are accumulated in that
order and each completion bumps the progress counter. -/
def find_matches_par (numCores : Nat) (lex : Option (List (String × String)))
    (mdf : Option RecordTable) (idCol : String) (selCol : List String)
    (reorder : List WorkItem → List WorkItem) : RunOutput :=
  match lex, mdf with
  | some l, some m =>
    if l.isEmpty || m.rows.isEmpty then ⟨[], [100]⟩
    else
      let items := mkWorkItems m idCol selCol (termBatches numCores l)
      let gathered := (reorder items).flatMap (runWorkItem noRegexError)
      ⟨sortMatches gathered, progressSeq items.length ++ [100]⟩
  | _, _ => ⟨[], [100]⟩

/-- A concrete one-row metadata table (the record table of Scenario A of the
specification). -/
def scenarioA : RecordTable :=
  ⟨[fun c =>
      if c = "id" then some "1"
      else if c = "title" then some "The potato field" else none]⟩

/-- A concrete match record used to instantiate hypotheses. -/
def sampleRec : MatchRec :=
  { identifier := some "1", term := "potato", category := "Food",
    column := "title", originalText := some "The potato field" }

/-- Word-character-ness of the first character of a list (non-word when
empty). -/
def headIsWord (l : List Char) : Bool :=
  match l.head? with
  | some c => isWordChar c
  | none => false

/-- Word-character-ness of the last character of a list (non-word when
empty). -/
def lastIsWord (l : List Char) : Bool :=
  match l.getLast? with
  | some c => isWordChar c
  | none => false

/-- Spec-side reading of the whole-word property: case-insensitively, `X`
occurs in `T` as a complete token — some case-folded decomposition
`T = pre ++ X ++ suf` in which the word-character-ness changes at both ends
of the occurrence (standard word-character semantics), so the occurrence is
not part of a larger token. -/
def specWholeWordOccurs (X T : String) : Prop :=
  ∃ pre suf : List Char,
    lowerChars T = pre ++ lowerChars X ++ suf ∧
    lastIsWord pre ≠ headIsWord (lowerChars X ++ suf) ∧
    lastIsWord (pre ++ lowerChars X) ≠ headIsWord suf

theorem headIsWord_drop (s : List Char) (j : Nat) :
    headIsWord (s.drop j) = wordAt s j := by
  unfold headIsWord wordAt
  rw [List.head?_eq_getElem?, List.getElem?_drop, Nat.add_zero]

theorem lastIsWord_take (s : List Char) (j : Nat) (hj : j ≤ s.length) :
    lastIsWord (s.take j) = if j = 0 then false else wordAt s (j - 1) := by
  unfold lastIsWord wordAt
  rw [List.getLast?_eq_getElem?]
  have hlen : (s.take j).length = j := by
    simp only [List.length_take]
    omega
  rw [hlen, List.getElem?_take]
  rcases Nat.eq_zero_or_pos j with h0 | hpos
  · subst h0
    simp
  · have hne : j ≠ 0 := Nat.pos_iff_ne_zero.mp hpos
    have hlt : j - 1 < j := by omega
    simp [hne, hlt]

/-- A `\b` test at position `j` compares the word-character-ness of the end of
the prefix with that of the start of the remainder. -/
theorem boundaryAt_split (s : List Char) (j : Nat) (hj : j ≤ s.length) :
    boundaryAt s j = (lastIsWord (s.take j) != headIsWord (s.drop j)) := by
  rw [headIsWord_drop, lastIsWord_take s j hj]
  rfl

/-- The regex search embedded in `wholeWordMatch` finds the term exactly when
some case-folded decomposition with word boundaries at both ends exists. -/
theorem wholeWordMatch_iff_spec (X T : String) :
    wholeWordMatch X T = true ↔ specWholeWordOccurs X T := by
  unfold wholeWordMatch specWholeWordOccurs
  set s := lowerChars T with hsdef
  set t := lowerChars X with htdef
  rw [List.any_eq_true]
  constructor
  · rintro ⟨i, hi, hm⟩
    rw [List.mem_range] at hi
    have hile : i ≤ s.length := by omega
    unfold matchAt at hm
    rw [Bool.and_eq_true, Bool.and_eq_true] at hm
    obtain ⟨⟨h1, h2⟩, h3⟩ := hm
    have hteq : (s.drop i).take t.length = t := eq_of_beq h1
    have htlen : t.length ≤ s.length - i := by
      have hl := congrArg List.length hteq
      simp only [List.length_take, List.length_drop] at hl
      omega
    have hsplit : s.drop i = t ++ s.drop (i + t.length) := by
      conv_lhs => rw [← List.take_append_drop t.length (s.drop i)]
      rw [hteq, List.drop_drop]
    have hdecomp : s = s.take i ++ t ++ s.drop (i + t.length) := by
      conv_lhs => rw [← List.take_append_drop i s]
      rw [hsplit, ← List.append_assoc]
    refine ⟨s.take i, s.drop (i + t.length), hdecomp, ?_, ?_⟩
    · rw [← hsplit]
      rw [boundaryAt_split s i hile] at h2
      exact bne_iff_ne.mp h2
    · have hij : i + t.length ≤ s.length := by omega
      have htake : s.take (i + t.length) = s.take i ++ t := by
        rw [List.take_add, hteq]
      rw [boundaryAt_split s (i + t.length) hij, htake] at h3
      exact bne_iff_ne.mp h3
  · rintro ⟨pre, suf, hsp, hb1, hb2⟩
    have hslen : s.length = pre.length + (t.length + suf.length) := by
      rw [hsp]
      simp [List.length_append]
    have hdrop1 : s.drop pre.length = t ++ suf := by
      rw [hsp, List.append_assoc, List.drop_left]
    have htake1 : s.take pre.length = pre := by
      rw [hsp, List.append_assoc, List.take_left]
    have hlen2 : (pre ++ t).length = pre.length + t.length := by
      simp [List.length_append]
    have hdrop2 : s.drop (pre.length + t.length) = suf := by
      rw [hsp, ← hlen2, List.drop_left]
    have htake2 : s.take (pre.length + t.length) = pre ++ t := by
      rw [hsp, ← hlen2, List.take_left]
    refine ⟨pre.length, ?_, ?_⟩
    · rw [List.mem_range]
      omega
    · unfold matchAt
      rw [Bool.and_eq_true, Bool.and_eq_true]
      refine ⟨⟨?_, ?_⟩, ?_⟩
      · rw [hdrop1, List.take_left]
        simp
      · rw [boundaryAt_split s pre.length (by omega), htake1, hdrop1]
        exact bne_iff_ne.mpr hb1
      · rw [boundaryAt_split s (pre.length + t.length) (by omega), htake2,
          hdrop2]
        exact bne_iff_ne.mpr hb2

/-- C1: on a cell with text `T`, the Column Matcher produces a match for term
`X` exactly when `X` occurs in `T` as a whole word (complete token, word
boundaries by word-character semantics), compared case-insensitively; in
particular an occurrence that is part of a larger token produces no
match. -/
theorem column_matcher_whole_word (term category colName : String)
    (idv : Option String) (T : String) :
    _match_terms_in_column noRegexError [some T] [idv] colName
        [(term, category)] ≠ []
      ↔ specWholeWordOccurs term T := by
  have hcell : cellMatches term (some T) = wholeWordMatch term T := rfl
  have hred : _match_terms_in_column noRegexError [some T] [idv] colName
      [(term, category)]
      = if wholeWordMatch term T then
          [{ identifier := idv, term := term, category := category,
             column := colName, originalText := some T }]
        else [] := by
    cases hc : wholeWordMatch term T with
    | false =>
      simp [_match_terms_in_column, noRegexError, matchesForTerm,
        List.range_succ, hcell, hc]
    | true =>
      simp [_match_terms_in_column, noRegexError, matchesForTerm,
        List.range_succ, hcell, hc]
  rw [hred]
  constructor
  · intro hne
    have hw : wholeWordMatch term T = true := by
      by_contra hfalse
      rw [Bool.not_eq_true] at hfalse
      simp [hfalse] at hne
    exact (wholeWordMatch_iff_spec term T).mp hw
  · intro hspec
    have hw := (wholeWordMatch_iff_spec term T).mpr hspec
    simp [hw]

/-- C9: a term whose pattern fails to compile is skipped and only that term:
for any compilation oracle `err`, the worker's output over a batch equals
the error-free worker's output over the batch with the failing terms
removed — every other term still produces its matches, and the worker is a
total function of the batch (no abort). -/
theorem matcher_skips_bad_terms (err : String → Bool)
    (colValues idValues : List (Option String)) (colName : String)
    (batch : List (String × String)) :
    _match_terms_in_column err colValues idValues colName batch
      = _match_terms_in_column noRegexError colValues idValues colName
          (batch.filter fun tc => !err tc.1) := by
  induction batch with
  | nil => rfl
  | cons tc rest ih =>
    by_cases h : err tc.1 = true
    · simp [_match_terms_in_column, List.filter_cons, h, noRegexError] at ih ⊢
      exact ih
    · simp only [Bool.not_eq_true] at h
      simp [_match_terms_in_column, List.filter_cons, h, noRegexError] at ih ⊢
      exact ih

/-- C10: the getter returns `None` exactly when the stored matches table is
absent or empty, and returns the table itself exactly when it is
non-empty — so the getter does not preserve the "empty table, not null"
terminal state that `find_matches` produces. -/
theorem getter_collapses_empty (t : Option (List MatchRec)) :
    (get_matching_results t = none ↔ t = none ∨ t = some []) ∧
    ∀ l : List MatchRec, l ≠ [] → get_matching_results (some l) = some l := by
  constructor
  · match t with
    | none => simp [get_matching_results]
    | some l =>
      match l with
      | [] => simp [get_matching_results]
      | x :: xs => simp [get_matching_results]
  · intro l hl
    match l with
    | [] => exact absurd rfl hl
    | x :: xs => simp [get_matching_results]

/-- Witness for C10 at a concrete non-empty table. -/
theorem getter_collapses_empty_witness :
    get_matching_results (some [sampleRec]) = some [sampleRec] :=
  (getter_collapses_empty (some [sampleRec])).2 [sampleRec] (by decide)

theorem charListLT_trichot : ∀ as bs : List Char,
    charListLT as bs = true ∨ as = bs ∨ charListLT bs as = true
  | [], [] => Or.inr (Or.inl rfl)
  | [], _ :: _ => Or.inl rfl
  | _ :: _, [] => Or.inr (Or.inr rfl)
  | a :: as, b :: bs => by
    rcases lt_trichotomy a b with h | h | h
    · exact Or.inl (by simp [charListLT, h])
    · subst h
      rcases charListLT_trichot as bs with h2 | h2 | h2
      · exact Or.inl (by simp [charListLT, h2])
      · exact Or.inr (Or.inl (by rw [h2]))
      · exact Or.inr (Or.inr (by simp [charListLT, h2]))
    · exact Or.inr (Or.inr (by simp [charListLT, h]))

theorem charListLT_trans {as bs cs : List Char}
    (h1 : charListLT as bs = true) (h2 : charListLT bs cs = true) :
    charListLT as cs = true := by
  induction as generalizing bs cs with
  | nil =>
    cases cs with
    | nil => cases bs <;> simp [charListLT] at h2
    | cons c cs2 => rfl
  | cons a as2 ih =>
    cases bs with
    | nil => simp [charListLT] at h1
    | cons b bs2 =>
      cases cs with
      | nil => simp [charListLT] at h2
      | cons c cs2 =>
        simp only [charListLT, Bool.or_eq_true, Bool.and_eq_true,
          decide_eq_true_eq, beq_iff_eq] at h1 h2 ⊢
        rcases h1 with h1 | ⟨hab, h1⟩
        · rcases h2 with h2 | ⟨hbc, h2⟩
          · exact Or.inl (lt_trans h1 h2)
          · exact Or.inl (by rw [← hbc]; exact h1)
        · rcases h2 with h2 | ⟨hbc, h2⟩
          · exact Or.inl (by rw [hab]; exact h2)
          · exact Or.inr ⟨hab.trans hbc, ih h1 h2⟩

theorem strLT_trichot (x y : String) :
    strLT x y = true ∨ x = y ∨ strLT y x = true := by
  rcases charListLT_trichot x.data y.data with h | h | h
  · exact Or.inl h
  · refine Or.inr (Or.inl ?_)
    cases x
    cases y
    simp only at h
    rw [h]
  · exact Or.inr (Or.inr h)

theorem strLT_trans {x y z : String} (h1 : strLT x y = true)
    (h2 : strLT y z = true) : strLT x z = true :=
  charListLT_trans h1 h2

theorem strLE_total (x y : String) : strLE x y = true ∨ strLE y x = true := by
  rcases strLT_trichot x y with h | h | h
  · exact Or.inl (by simp [strLE, h])
  · exact Or.inl (by simp [strLE, h])
  · exact Or.inr (by simp [strLE, h])

theorem strLE_trans {x y z : String} (h1 : strLE x y = true)
    (h2 : strLE y z = true) : strLE x z = true := by
  simp only [strLE, Bool.or_eq_true, beq_iff_eq] at h1 h2 ⊢
  rcases h1 with h1 | h1
  · rcases h2 with h2 | h2
    · exact Or.inl (strLT_trans h1 h2)
    · exact Or.inl (by rw [← h2]; exact h1)
  · rcases h2 with h2 | h2
    · exact Or.inl (by rw [h1]; exact h2)
    · exact Or.inr (h1.trans h2)

theorem optStrLT_trichot (x y : Option String) :
    optStrLT x y = true ∨ x = y ∨ optStrLT y x = true := by
  match x, y with
  | none, none => exact Or.inr (Or.inl rfl)
  | none, some b => exact Or.inr (Or.inr rfl)
  | some a, none => exact Or.inl rfl
  | some a, some b =>
    rcases strLT_trichot a b with h | h | h
    · exact Or.inl h
    · exact Or.inr (Or.inl (by rw [h]))
    · exact Or.inr (Or.inr h)

theorem optStrLT_trans {x y z : Option String} (h1 : optStrLT x y = true)
    (h2 : optStrLT y z = true) : optStrLT x z = true := by
  match x, y, z with
  | some a, some b, some c =>
    simp only [optStrLT] at h1 h2 ⊢
    exact strLT_trans h1 h2
  | some a, some b, none => rfl
  | some a, none, z => simp [optStrLT] at h2
  | none, y, z => simp [optStrLT] at h1

/-- The key order of the final sort, in propositional form. -/
theorem keyLE_iff (a b : MatchRec) :
    keyLE a b = true ↔
      optStrLT a.identifier b.identifier = true ∨
        (a.identifier = b.identifier ∧
          (strLT a.column b.column = true ∨
            (a.column = b.column ∧ strLE a.term b.term = true))) := by
  simp [keyLE, Bool.or_eq_true, Bool.and_eq_true, beq_iff_eq]

theorem keyLE_total (a b : MatchRec) : (keyLE a b || keyLE b a) = true := by
  rw [Bool.or_eq_true, keyLE_iff, keyLE_iff]
  rcases optStrLT_trichot a.identifier b.identifier with h | h | h
  · exact Or.inl (Or.inl h)
  · rcases strLT_trichot a.column b.column with hc | hc | hc
    · exact Or.inl (Or.inr ⟨h, Or.inl hc⟩)
    · rcases strLE_total a.term b.term with ht | ht
      · exact Or.inl (Or.inr ⟨h, Or.inr ⟨hc, ht⟩⟩)
      · exact Or.inr (Or.inr ⟨h.symm, Or.inr ⟨hc.symm, ht⟩⟩)
    · exact Or.inr (Or.inr ⟨h.symm, Or.inl hc⟩)
  · exact Or.inr (Or.inl h)

theorem keyLE_trans {a b c : MatchRec} (h1 : keyLE a b = true)
    (h2 : keyLE b c = true) : keyLE a c = true := by
  rw [keyLE_iff] at h1 h2 ⊢
  rcases h1 with h1 | ⟨he1, h1⟩
  · rcases h2 with h2 | ⟨he2, h2⟩
    · exact Or.inl (optStrLT_trans h1 h2)
    · exact Or.inl (by rw [← he2]; exact h1)
  · rcases h2 with h2 | ⟨he2, h2⟩
    · exact Or.inl (by rw [he1]; exact h2)
    · refine Or.inr ⟨he1.trans he2, ?_⟩
      rcases h1 with h1 | ⟨hce1, h1⟩
      · rcases h2 with h2 | ⟨hce2, h2⟩
        · exact Or.inl (strLT_trans h1 h2)
        · exact Or.inl (by rw [← hce2]; exact h1)
      · rcases h2 with h2 | ⟨hce2, h2⟩
        · exact Or.inl (by rw [hce1]; exact h2)
        · exact Or.inr ⟨hce1.trans hce2, strLE_trans h1 h2⟩

instance : IsTotal MatchRec keyRel :=
  ⟨fun a b => by
    have h := keyLE_total a b
    rw [Bool.or_eq_true] at h
    exact h⟩

instance : IsTrans MatchRec keyRel :=
  ⟨fun _ _ _ h1 h2 => keyLE_trans h1 h2⟩

/-- The final sort always yields a list sorted under the key order. -/
theorem sortMatches_pairwise (l : List MatchRec) :
    List.Pairwise (fun a b => keyLE a b = true) (sortMatches l) :=
  List.sorted_insertionSort keyRel l

/-- Sorting a sorted list is the identity. -/
theorem sortMatches_of_pairwise {l : List MatchRec}
    (h : List.Pairwise (fun a b => keyLE a b = true) l) :
    sortMatches l = l :=
  List.Sorted.insertionSort_eq h

/-- The final sort permutes its input. -/
theorem sortMatches_perm (l : List MatchRec) : (sortMatches l).Perm l :=
  List.perm_insertionSort keyRel l

theorem sortMatches_nil : sortMatches [] = [] := rfl

/-- Every result of `find_matches` is the final sort of some list. -/
theorem find_matches_result_eq_sort (numCores : Nat)
    (lex : Option (List (String × String))) (mdf : Option RecordTable)
    (idCol : String) (selCol : List String) :
    ∃ l0, (find_matches numCores lex mdf idCol selCol).result
      = sortMatches l0 := by
  cases lex with
  | none =>
    exact ⟨[], by simp [find_matches, sortMatches_nil]⟩
  | some l =>
    cases mdf with
    | none =>
      exact ⟨[], by simp [find_matches, sortMatches_nil]⟩
    | some m =>
      by_cases hg : (l.isEmpty || m.rows.isEmpty) = true
      · exact ⟨[], by simp [find_matches, hg, sortMatches_nil]⟩
      · rw [Bool.not_eq_true] at hg
        exact ⟨(mkWorkItems m idCol selCol (termBatches numCores l)).flatMap
          (runWorkItem noRegexError), by simp [find_matches, hg]⟩

/-- C3: for every run, the final result table is sorted by
(Identifier, Column, Term) ascending under string comparison, and
re-sorting it with the same key leaves it unchanged. -/
theorem result_sorted_and_sort_idempotent (numCores : Nat)
    (lex : Option (List (String × String))) (mdf : Option RecordTable)
    (idCol : String) (selCol : List String) :
    List.Pairwise (fun a b => keyLE a b = true)
        (find_matches numCores lex mdf idCol selCol).result ∧
      sortMatches (find_matches numCores lex mdf idCol selCol).result
        = (find_matches numCores lex mdf idCol selCol).result := by
  obtain ⟨l0, h0⟩ :=
    find_matches_result_eq_sort numCores lex mdf idCol selCol
  rw [h0]
  exact ⟨sortMatches_pairwise l0,
    sortMatches_of_pairwise (sortMatches_pairwise l0)⟩

/-- Every per-unit progress value is strictly below 100. -/
theorem progressSeq_lt (n : Nat) : ∀ p ∈ progressSeq n, p < 100 := by
  intro p hp
  simp only [progressSeq, List.mem_map, List.mem_range] at hp
  obtain ⟨i, hi, hpe⟩ := hp
  subst hpe
  unfold progressOf
  have hpos : 0 < n := by omega
  have h1 : (i + 1) * 99 ≤ n * 99 := Nat.mul_le_mul_right 99 hi
  have h2 : (i + 1) * 99 / n ≤ n * 99 / n := Nat.div_le_div_right h1
  have h3 : n * 99 / n = 99 := Nat.mul_div_cancel_left 99 hpos
  omega

/-- The per-unit progress values are monotonically non-decreasing. -/
theorem progressSeq_mono (n : Nat) :
    List.Pairwise (· ≤ ·) (progressSeq n) := by
  unfold progressSeq
  rw [List.pairwise_map]
  refine (List.pairwise_lt_range n).imp ?_
  intro a b hab
  exact Nat.div_le_div_right (Nat.mul_le_mul_right 99 (by omega))

/-- Every run's progress stream is the per-unit stream followed by the final
100. -/
theorem find_matches_progress_eq (numCores : Nat)
    (lex : Option (List (String × String))) (mdf : Option RecordTable)
    (idCol : String) (selCol : List String) :
    ∃ n, (find_matches numCores lex mdf idCol selCol).progress
      = progressSeq n ++ [100] := by
  cases lex with
  | none => exact ⟨0, by simp [find_matches, progressSeq]⟩
  | some l =>
    cases mdf with
    | none => exact ⟨0, by simp [find_matches, progressSeq]⟩
    | some m =>
      by_cases hg : (l.isEmpty || m.rows.isEmpty) = true
      · exact ⟨0, by simp [find_matches, hg, progressSeq]⟩
      · rw [Bool.not_eq_true] at hg
        exact ⟨(mkWorkItems m idCol selCol (termBatches numCores l)).length,
          by simp [find_matches, hg]⟩

/-- C6: within one run, the progress channel emits integers in [0, 100],
monotonically non-decreasing, each per-unit update computed from the
completed/total ratio and kept below 100 until aggregation finishes, and
the stream terminates in exactly one 100. -/
theorem progress_stream_contract (numCores : Nat)
    (lex : Option (List (String × String))) (mdf : Option RecordTable)
    (idCol : String) (selCol : List String) :
    List.Pairwise (· ≤ ·)
        (find_matches numCores lex mdf idCol selCol).progress ∧
      (∀ p ∈ (find_matches numCores lex mdf idCol selCol).progress,
        p ≤ 100) ∧
      (∀ p ∈ (find_matches numCores lex mdf idCol selCol).progress.dropLast,
        p < 100) ∧
      (find_matches numCores lex mdf idCol selCol).progress.count 100 = 1 ∧
      (find_matches numCores lex mdf idCol selCol).progress.getLast?
        = some 100 := by
  obtain ⟨n, hn⟩ :=
    find_matches_progress_eq numCores lex mdf idCol selCol
  rw [hn]
  refine ⟨?_, ?_, ?_, ?_, ?_⟩
  · rw [List.pairwise_append]
    refine ⟨progressSeq_mono n, List.pairwise_singleton _ _, ?_⟩
    intro a ha b hb
    rw [List.mem_singleton] at hb
    subst hb
    exact Nat.le_of_lt (progressSeq_lt n a ha)
  · intro p hp
    rw [List.mem_append] at hp
    rcases hp with hp | hp
    · exact Nat.le_of_lt (progressSeq_lt n p hp)
    · rw [List.mem_singleton] at hp
      omega
  · intro p hp
    rw [List.dropLast_concat] at hp
    exact progressSeq_lt n p hp
  · rw [List.count_append]
    have h0 : (progressSeq n).count 100 = 0 := by
      rw [List.count_eq_zero]
      intro hmem
      exact absurd (progressSeq_lt n 100 hmem) (by omega)
    rw [h0]
    simp
  · rw [List.getLast?_concat]

/-- C5: a missing or empty record table, a missing or empty filtered lexicon,
or an empty selected-columns list each yield an empty result table and the
single final progress value 100; the embedding is a total function, so no
exception reaches the caller on these paths (the source catches the
executor-construction error raised when there are zero work units). -/
theorem empty_inputs_short_circuit (numCores : Nat)
    (lex : Option (List (String × String))) (mdf : Option RecordTable)
    (idCol : String) (selCol : List String)
    (h : lex = none ∨ lex = some [] ∨ mdf = none ∨
        (∃ m, mdf = some m ∧ m.rows = []) ∨ selCol = []) :
    (find_matches numCores lex mdf idCol selCol).result = [] ∧
      (find_matches numCores lex mdf idCol selCol).progress = [100] := by
  rcases h with h | h | h | ⟨m, hm, hrows⟩ | h
  · subst h
    exact ⟨rfl, rfl⟩
  · subst h
    cases mdf with
    | none => exact ⟨rfl, rfl⟩
    | some m => simp [find_matches]
  · subst h
    cases lex with
    | none => exact ⟨rfl, rfl⟩
    | some l => exact ⟨rfl, rfl⟩
  · subst hm
    cases lex with
    | none => exact ⟨rfl, rfl⟩
    | some l =>
      have hre : m.rows.isEmpty = true := by simp [hrows]
      simp [find_matches, hre]
  · subst h
    cases lex with
    | none => exact ⟨rfl, rfl⟩
    | some l =>
      cases mdf with
      | none => exact ⟨rfl, rfl⟩
      | some m =>
        by_cases hg : (l.isEmpty || m.rows.isEmpty) = true
        · simp [find_matches, hg]
        · rw [Bool.not_eq_true] at hg
          simp [find_matches, hg, mkWorkItems, progressSeq, sortMatches_nil]

theorem batchSize_pos (nTerms numCores : Nat) : 0 < batchSize nTerms numCores := by
  unfold batchSize
  omega

/-- The number of slices of a list with one more element is one more slice of
the rest, for a positive slice size. -/
theorem ceil_div_succ (bs n : Nat) (hbs : 0 < bs) (hn : 0 < n) :
    (n + bs - 1) / bs = (n - bs + bs - 1) / bs + 1 := by
  rcases Nat.lt_or_ge n bs with h | h
  · have h1 : (n + bs - 1) / bs = 1 := by
      apply Nat.div_eq_of_lt_le
      · omega
      · omega
    have h2 : n - bs = 0 := by omega
    have h3 : (0 + bs - 1) / bs = 0 := Nat.div_eq_of_lt (by omega)
    rw [h1, h2, h3]
  · have he : n + bs - 1 = (n - bs + bs - 1) + bs := by omega
    rw [he, Nat.add_div_right _ hbs]

/-- Peeling the first slice off a non-empty list. -/
theorem sliceList_cons (bs : Nat) (hbs : 0 < bs) (x : α) (xs : List α) :
    sliceList bs (x :: xs)
      = (x :: xs).take bs :: sliceList bs ((x :: xs).drop bs) := by
  unfold sliceList
  have hlen : ((x :: xs).drop bs).length = (x :: xs).length - bs := by
    simp [List.length_drop]
  rw [hlen]
  have hcount := ceil_div_succ bs (x :: xs).length hbs (by simp)
  rw [hcount, List.range_succ_eq_map, List.map_cons]
  congr 1
  · simp
  · rw [List.map_map]
    refine List.map_congr_left ?_
    intro i _
    show ((x :: xs).drop (Nat.succ i * bs)).take bs
      = (((x :: xs).drop bs).drop (i * bs)).take bs
    rw [List.drop_drop]
    have hmul : Nat.succ i * bs = bs + i * bs := by
      rw [Nat.succ_mul]
      omega
    rw [hmul]

/-- Concatenating the slices restores the original list. -/
theorem sliceList_flatten (bs : Nat) (hbs : 0 < bs) :
    ∀ l : List α, (sliceList bs l).flatten = l
  | [] => by
    unfold sliceList
    simp only [List.length_nil]
    rw [Nat.div_eq_of_lt (by omega)]
    rfl
  | x :: xs => by
    rw [sliceList_cons bs hbs, List.flatten_cons,
      sliceList_flatten bs hbs ((x :: xs).drop bs), List.take_append_drop]
termination_by l => l.length
decreasing_by simp [List.length_drop]; omega

/-- A non-empty list yields at least one slice. -/
theorem sliceList_ne_nil (bs : Nat) (hbs : 0 < bs) (x : α) (xs : List α) :
    sliceList bs (x :: xs) ≠ [] := by
  rw [sliceList_cons bs hbs]
  exact List.cons_ne_nil _ _

/-- Slice boundaries are a function of the list length alone. -/
theorem sliceList_map_length (bs : Nat) (l : List α) :
    (sliceList bs l).map List.length = batchLens bs l.length := by
  unfold sliceList batchLens
  rw [List.map_map]
  refine List.map_congr_left ?_
  intro i _
  show ((l.drop (i * bs)).take bs).length = min bs (l.length - i * bs)
  simp [List.length_take, List.length_drop]

/-- C7: for a non-empty filtered lexicon, the partitioner produces at least
one contiguous batch, the concatenation of the batches is the original term
list, the batch boundaries are a function of the lexicon size and the core
count alone, and exactly one work unit is produced per (column, batch)
pair, carrying that column's values, the identifier values in row order,
the column name and the batch. -/
theorem work_partitioner_contract (numCores : Nat)
    (lex : List (String × String)) (hlex : lex ≠ [])
    (m : RecordTable) (idCol : String) (selCol : List String) :
    (termBatches numCores lex).flatten = lex ∧
      termBatches numCores lex ≠ [] ∧
      (termBatches numCores lex).map List.length
        = batchLens (batchSize lex.length numCores) lex.length ∧
      (mkWorkItems m idCol selCol (termBatches numCores lex)).length
        = selCol.length * (termBatches numCores lex).length ∧
      ∀ w ∈ mkWorkItems m idCol selCol (termBatches numCores lex),
        w.colValues = colData m w.colName ∧ w.idValues = colData m idCol ∧
          w.colName ∈ selCol ∧ w.batch ∈ termBatches numCores lex := by
  refine ⟨sliceList_flatten _ (batchSize_pos lex.length numCores) lex, ?_,
    sliceList_map_length _ lex, ?_, ?_⟩
  · match lex, hlex with
    | x :: xs, _ =>
      exact sliceList_ne_nil _ (batchSize_pos (x :: xs).length numCores) x xs
  · unfold mkWorkItems
    induction selCol with
    | nil => simp
    | cons c cs ih =>
      simp only [List.flatMap_cons, List.length_append, List.length_map,
        List.length_cons, ih]
      ring
  · intro w hw
    unfold mkWorkItems at hw
    rw [List.mem_flatMap] at hw
    obtain ⟨col, hcol, hw⟩ := hw
    rw [List.mem_map] at hw
    obtain ⟨b, hb, rfl⟩ := hw
    exact ⟨rfl, rfl, hcol, hb⟩

/-- Witness for C7 at a concrete lexicon: the single batch restores the term
list. -/
theorem work_partitioner_contract_witness :
    (termBatches 1 [("potato", "Food")]).flatten = [("potato", "Food")] :=
  (work_partitioner_contract 1 [("potato", "Food")] (by decide) scenarioA
    "id" ["title"]).1

/-- Witness for C5: empty selected columns with a non-empty lexicon and a
non-empty record table. -/
theorem empty_inputs_short_circuit_witness :
    (find_matches 1 (some [("potato", "Food")]) (some scenarioA) "id"
        []).result = [] ∧
      (find_matches 1 (some [("potato", "Food")]) (some scenarioA) "id"
        []).progress = [100] :=
  empty_inputs_short_circuit 1 (some [("potato", "Food")]) (some scenarioA)
    "id" [] (Or.inr (Or.inr (Or.inr (Or.inr rfl))))

/-- Splitting a batch list and concatenating the worker outputs equals running
the worker once on the concatenated batch. -/
theorem matcher_flatten (err : String → Bool)
    (colValues idValues : List (Option String)) (colName : String)
    (bs : List (List (String × String))) :
    (bs.flatMap fun b =>
        _match_terms_in_column err colValues idValues colName b)
      = _match_terms_in_column err colValues idValues colName bs.flatten := by
  induction bs with
  | nil => rfl
  | cons b rest ih =>
    rw [List.flatMap_cons, List.flatten_cons, ih]
    unfold _match_terms_in_column
    rw [List.flatMap_append]

theorem termBatches_flatten (numCores : Nat) (lex : List (String × String)) :
    (termBatches numCores lex).flatten = lex :=
  sliceList_flatten _ (batchSize_pos lex.length numCores) lex

/-- Dispatching all work units is, per selected column, one worker run over
the whole filtered lexicon. -/
theorem gather_eq (err : String → Bool) (numCores : Nat)
    (lex : List (String × String)) (m : RecordTable) (idCol : String)
    (selCol : List String) :
    (mkWorkItems m idCol selCol (termBatches numCores lex)).flatMap
        (runWorkItem err)
      = selCol.flatMap fun col =>
          _match_terms_in_column err (colData m col) (colData m idCol) col
            lex := by
  unfold mkWorkItems
  rw [List.flatMap_assoc]
  apply congrArg
  funext col
  rw [List.flatMap_map]
  calc (termBatches numCores lex).flatMap
        (fun b => runWorkItem err ⟨colData m col, colData m idCol, col, b⟩)
      = (termBatches numCores lex).flatMap
          (fun b => _match_terms_in_column err (colData m col)
            (colData m idCol) col b) := rfl
    _ = _match_terms_in_column err (colData m col) (colData m idCol) col
          (termBatches numCores lex).flatten :=
        matcher_flatten err _ _ col (termBatches numCores lex)
    _ = _match_terms_in_column err (colData m col) (colData m idCol) col
          lex := by rw [termBatches_flatten]

/-- The result of a run on present tables is a permutation of the per-column
worker outputs over the whole filtered lexicon. -/
theorem find_matches_result_perm (numCores : Nat)
    (lex : List (String × String)) (m : RecordTable) (idCol : String)
    (selCol : List String) :
    (find_matches numCores (some lex) (some m) idCol selCol).result.Perm
      (selCol.flatMap fun col =>
        _match_terms_in_column noRegexError (colData m col)
          (colData m idCol) col lex) := by
  by_cases hg : (lex.isEmpty || m.rows.isEmpty) = true
  · have hres : (find_matches numCores (some lex) (some m) idCol
        selCol).result = [] := by simp [find_matches, hg]
    rw [hres]
    rw [Bool.or_eq_true] at hg
    rcases hg with h | h
    · rw [List.isEmpty_iff] at h
      subst h
      simp [_match_terms_in_column]
    · rw [List.isEmpty_iff] at h
      have hcd : ∀ c, colData m c = [] := by
        intro c
        simp [colData, h]
      simp [_match_terms_in_column, matchesForTerm, hcd]
  · rw [Bool.not_eq_true] at hg
    have hres : (find_matches numCores (some lex) (some m) idCol
        selCol).result
        = sortMatches ((mkWorkItems m idCol selCol
            (termBatches numCores lex)).flatMap (runWorkItem noRegexError)) := by
      simp [find_matches, hg]
    rw [hres, ← gather_eq noRegexError]
    exact sortMatches_perm _

/-- All matches of a run, each annotated with its generating
(column, row index, term) triple. -/
def annotatedMatches (lex : List (String × String)) (m : RecordTable)
    (idCol : String) (selCol : List String) :
    List ((String × Nat × String) × MatchRec) :=
  selCol.flatMap fun col =>
    lex.flatMap fun tc =>
      (List.range (colData m col).length).filterMap fun idx =>
        if cellMatches tc.1 ((colData m col).getD idx none) then
          some ((col, idx, tc.1),
            { identifier := (colData m idCol).getD idx none
              term := tc.1
              category := tc.2
              column := col
              originalText := (colData m col).getD idx none })
        else none

/-- The (column, row index, term) triples that match, for one column and one
term. -/
def tripleRows (m : RecordTable) (col term : String) :
    List (String × Nat × String) :=
  (List.range (colData m col).length).filterMap fun idx =>
    if cellMatches term ((colData m col).getD idx none) then
      some (col, idx, term)
    else none

/-- Dropping the annotations yields exactly the per-column worker outputs. -/
theorem annotated_snd (lex : List (String × String)) (m : RecordTable)
    (idCol : String) (selCol : List String) :
    (annotatedMatches lex m idCol selCol).map Prod.snd
      = selCol.flatMap fun col =>
          _match_terms_in_column noRegexError (colData m col)
            (colData m idCol) col lex := by
  unfold annotatedMatches _match_terms_in_column
  rw [List.map_flatMap]
  apply congrArg
  funext col
  rw [List.map_flatMap]
  apply congrArg
  funext tc
  simp only [noRegexError, Bool.false_eq_true, if_false]
  rw [List.map_filterMap]
  unfold matchesForTerm
  have heq : ∀ idx : Nat, Option.map Prod.snd
      (if cellMatches tc.1 ((colData m col).getD idx none) then
        some ((col, idx, tc.1),
          ({ identifier := (colData m idCol).getD idx none, term := tc.1,
             category := tc.2, column := col,
             originalText := (colData m col).getD idx none } : MatchRec))
      else none)
      = if cellMatches tc.1 ((colData m col).getD idx none) then
          some ({ identifier := (colData m idCol).getD idx none,
                  term := tc.1, category := tc.2, column := col,
                  originalText := (colData m col).getD idx none } : MatchRec)
        else none := by
    intro idx
    by_cases h : cellMatches tc.1 ((colData m col).getD idx none) = true
    · simp [h]
    · simp [h]
  simp only [heq]

/-- Keeping only the annotations yields the per-(column, term) triple
lists. -/
theorem annotated_fst (lex : List (String × String)) (m : RecordTable)
    (idCol : String) (selCol : List String) :
    (annotatedMatches lex m idCol selCol).map Prod.fst
      = selCol.flatMap fun col =>
          lex.flatMap fun tc => tripleRows m col tc.1 := by
  unfold annotatedMatches tripleRows
  rw [List.map_flatMap]
  apply congrArg
  funext col
  rw [List.map_flatMap]
  apply congrArg
  funext tc
  rw [List.map_filterMap]
  have heq : ∀ idx : Nat, Option.map Prod.fst
      (if cellMatches tc.1 ((colData m col).getD idx none) then
        some ((col, idx, tc.1),
          ({ identifier := (colData m idCol).getD idx none, term := tc.1,
             category := tc.2, column := col,
             originalText := (colData m col).getD idx none } : MatchRec))
      else none)
      = if cellMatches tc.1 ((colData m col).getD idx none) then
          some (col, idx, tc.1) else none := by
    intro idx
    by_cases h : cellMatches tc.1 ((colData m col).getD idx none) = true
    · simp [h]
    · simp [h]
  simp only [heq]

theorem tripleRows_mem {m : RecordTable} {col term : String}
    {p : String × Nat × String} (hp : p ∈ tripleRows m col term) :
    p.1 = col ∧ p.2.2 = term := by
  unfold tripleRows at hp
  rw [List.mem_filterMap] at hp
  obtain ⟨idx, _, hidx⟩ := hp
  rw [Option.ite_none_right_eq_some] at hidx
  obtain ⟨_, hb⟩ := hidx
  have hpe : p = (col, idx, term) := (Option.some.inj hb).symm
  subst hpe
  exact ⟨rfl, rfl⟩

theorem tripleRows_nodup (m : RecordTable) (col term : String) :
    (tripleRows m col term).Nodup := by
  unfold tripleRows
  refine List.Nodup.filterMap ?_ (List.nodup_range _)
  intro a a' b hb hb'
  rw [Option.mem_def, Option.ite_none_right_eq_some] at hb hb'
  obtain ⟨_, hb⟩ := hb
  obtain ⟨_, hb'⟩ := hb'
  have h2 : (col, a, term) = ((col, a', term) : String × Nat × String) := by
    rw [Option.some.injEq] at hb hb'
    rw [hb, ← hb']
  have := congrArg (fun q : String × Nat × String => q.2.1) h2
  simpa using this

/-- The generating triples of a run are pairwise distinct when the selected
columns and the lexicon terms are. -/
theorem annotated_fst_nodup (lex : List (String × String)) (m : RecordTable)
    (idCol : String) (selCol : List String) (hcols : selCol.Nodup)
    (hterms : (lex.map Prod.fst).Nodup) :
    ((annotatedMatches lex m idCol selCol).map Prod.fst).Nodup := by
  rw [annotated_fst]
  have hcp : List.Pairwise (fun a b => a ≠ b) selCol := hcols
  have htp0 : List.Pairwise (fun a b => a ≠ b) (lex.map Prod.fst) := hterms
  rw [List.pairwise_map] at htp0
  rw [List.nodup_flatMap]
  constructor
  · intro col _
    rw [List.nodup_flatMap]
    constructor
    · intro tc _
      exact tripleRows_nodup m col tc.1
    · refine htp0.imp ?_
      intro tc tc' hne p hp hp'
      exact hne ((tripleRows_mem hp).2.symm.trans (tripleRows_mem hp').2)
  · refine hcp.imp ?_
    intro col col' hne p hp hp'
    rw [List.mem_flatMap] at hp hp'
    obtain ⟨tc, _, hp⟩ := hp
    obtain ⟨tc', _, hp'⟩ := hp'
    exact hne ((tripleRows_mem hp).1.symm.trans (tripleRows_mem hp').1)

/-- C2: on present tables, the result is (up to the final sort) exactly one
row per (record row, term, column) whole-word match, each row carrying the
row's identifier value, the term, its category, the column name and the raw
cell value; and no (record, term, column) triple generates two rows. -/
theorem one_row_per_match (numCores : Nat) (lex : List (String × String))
    (m : RecordTable) (idCol : String) (selCol : List String)
    (hcols : selCol.Nodup) (hterms : (lex.map Prod.fst).Nodup) :
    (find_matches numCores (some lex) (some m) idCol selCol).result.Perm
        ((annotatedMatches lex m idCol selCol).map Prod.snd)
      ∧ ((annotatedMatches lex m idCol selCol).map Prod.fst).Nodup := by
  constructor
  · rw [annotated_snd]
    exact find_matches_result_perm numCores lex m idCol selCol
  · exact annotated_fst_nodup lex m idCol selCol hcols hterms

/-- Witness for C2: Scenario A — one record, one term, one column, one
match record with the five expected fields. -/
theorem one_row_per_match_witness :
    (find_matches 1 (some [("potato", "Food")]) (some scenarioA) "id"
        ["title"]).result = [sampleRec] ∧
      ((find_matches 1 (some [("potato", "Food")]) (some scenarioA) "id"
          ["title"]).result.Perm
          ((annotatedMatches [("potato", "Food")] scenarioA "id"
            ["title"]).map Prod.snd)
        ∧ ((annotatedMatches [("potato", "Food")] scenarioA "id"
            ["title"]).map Prod.fst).Nodup) :=
  ⟨by decide,
    one_row_per_match 1 [("potato", "Food")] scenarioA "id" ["title"]
      (by decide) (by decide)⟩

/-- C4: the parallel dispatch path produces the same result-table content as
the sequential fallback, whatever completion order the futures have; only
the pre-sort accumulation order differs. -/
theorem parallel_matches_sequential (numCores : Nat)
    (lex : Option (List (String × String))) (mdf : Option RecordTable)
    (idCol : String) (selCol : List String)
    (reorder : List WorkItem → List WorkItem)
    (hre : ∀ l : List WorkItem, (reorder l).Perm l) :
    (find_matches_par numCores lex mdf idCol selCol reorder).result.Perm
      (find_matches numCores lex mdf idCol selCol).result := by
  cases lex with
  | none => exact List.Perm.refl _
  | some l =>
    cases mdf with
    | none => exact List.Perm.refl _
    | some m =>
      by_cases hg : (l.isEmpty || m.rows.isEmpty) = true
      · have h1 : (find_matches_par numCores (some l) (some m) idCol selCol
            reorder).result = [] := by simp [find_matches_par, hg]
        have h2 : (find_matches numCores (some l) (some m) idCol
            selCol).result = [] := by simp [find_matches, hg]
        rw [h1, h2]
      · rw [Bool.not_eq_true] at hg
        have h1 : (find_matches_par numCores (some l) (some m) idCol selCol
            reorder).result
            = sortMatches ((reorder (mkWorkItems m idCol selCol
                (termBatches numCores l))).flatMap
                (runWorkItem noRegexError)) := by
          simp [find_matches_par, hg]
        have h2 : (find_matches numCores (some l) (some m) idCol
            selCol).result
            = sortMatches ((mkWorkItems m idCol selCol
                (termBatches numCores l)).flatMap
                (runWorkItem noRegexError)) := by
          simp [find_matches, hg]
        rw [h1, h2]
        refine ((sortMatches_perm _).trans ?_).trans
          (sortMatches_perm _).symm
        exact List.Perm.flatMap_right _ (hre _)

/-- Witness for C4: a reversed completion order on Scenario A yields a
permutation of the sequential result. -/
theorem parallel_matches_sequential_witness :
    (find_matches_par 1 (some [("potato", "Food")]) (some scenarioA) "id"
        ["title"] List.reverse).result.Perm
      (find_matches 1 (some [("potato", "Food")]) (some scenarioA) "id"
        ["title"]).result :=
  parallel_matches_sequential 1 (some [("potato", "Food")]) (some scenarioA)
    "id" ["title"] List.reverse (fun l => l.reverse_perm)

/-- C8: every match record of a run over the category-filtered lexicon has
its column among the selected columns and its category among the (trimmed)
selected categories. -/
theorem category_column_scoping (numCores : Nat)
    (lexAll : List (String × String)) (cats : List String) (m : RecordTable)
    (idCol : String) (selCol : List String) (rec : MatchRec)
    (hmem : rec ∈ (find_matches numCores
        (some (select_categories lexAll cats)) (some m) idCol
        selCol).result) :
    rec.column ∈ selCol ∧ rec.category ∈ cats.map strip := by
  have hperm := find_matches_result_perm numCores
    (select_categories lexAll cats) m idCol selCol
  rw [hperm.mem_iff, List.mem_flatMap] at hmem
  obtain ⟨col, hcol, hmem⟩ := hmem
  unfold _match_terms_in_column at hmem
  rw [List.mem_flatMap] at hmem
  obtain ⟨tc, htc, hmem⟩ := hmem
  simp only [noRegexError, Bool.false_eq_true, if_false] at hmem
  unfold matchesForTerm at hmem
  rw [List.mem_filterMap] at hmem
  obtain ⟨idx, _, hidx⟩ := hmem
  rw [Option.ite_none_right_eq_some] at hidx
  obtain ⟨_, hb⟩ := hidx
  have hre : rec = { identifier := (colData m idCol).getD idx none,
                     term := tc.1, category := tc.2, column := col,
                     originalText := (colData m col).getD idx none } :=
    (Option.some.inj hb).symm
  subst hre
  refine ⟨hcol, ?_⟩
  unfold select_categories at htc
  rw [List.mem_filter] at htc
  exact List.elem_iff.mp htc.2

/-- Witness for C8: the Scenario A match record is scoped to the selected
column and category. -/
theorem category_column_scoping_witness :
    sampleRec.column ∈ ["title"] ∧
      sampleRec.category ∈ ["Food"].map strip :=
  category_column_scoping 1 [("potato", "Food"), ("turnip", "Other")]
    ["Food"] scenarioA "id" ["title"] sampleRec (by decide)

end MaRMAT
